import Mathlib

/-!
Verification of the comio object store core against its specification.

The definitions below are a shallow embedding of the Go sources:

* `SlabAllocator` with `allocate` / `free` embeds
  `internal/storage` `SlabAllocator.Allocate` / `SlabAllocator.Free`.
  The Go code stores slabs in a map keyed by slab offset; we represent the
  map as an association list in insertion order (keys are unique by
  construction).  Go iterates the map (`for off := range a.slabs`) in an
  unspecified, randomized order, so `allocate` takes the iteration order as
  an explicit parameter `order` (the list of keys in the order the range
  loop produces them).
* `putObject` / `getObject` embed `internal/object/service.go`
  `Service.PutObject` / `Service.GetObject` together with
  `FileRepository.Put` / `FileRepository.Get` (the metadata tree is a
  key-value map from (bucket, key) to descriptor; temp-file plus rename
  means a failed commit leaves the map unchanged).
* `replicatePutObject` embeds `internal/replication/replicator.go`
  `Replicator.replicatePutObject`: it computes the outbound HTTP request
  (method, url, body) or the error returned before any request is issued.
* `workerDrain` embeds the shutdown-time behaviour of `Replicator.worker`:
  after `Stop` has cancelled the context and closed the queue, each loop
  iteration resolves the three-way `select` according to a schedule of
  choices among the ready cases.
* `repoList` embeds `FileRepository.List` (walk result order is the input
  list order; `sort.Slice` by `Key <` is byte-lexicographic comparison,
  embedded as `strLtb` over the character data).

Machine integers (`int64`, `int`) are embedded as `Int`; none of the
verified claims involves overflow, and all quantities stay far below 2^63
on every concrete input used.
-/

namespace Comio

instance {ε α : Type} [DecidableEq ε] [DecidableEq α] : DecidableEq (Except ε α)
  | .error e, .error e' =>
    if h : e = e' then isTrue (by rw [h]) else isFalse (by intro hh; cases hh; exact h rfl)
  | .error _, .ok _ => isFalse (by intro h; cases h)
  | .ok _, .error _ => isFalse (by intro h; cases h)
  | .ok a, .ok a' =>
    if h : a = a' then isTrue (by rw [h]) else isFalse (by intro hh; cases hh; exact h rfl)

/-! ## Slab allocator (`internal/storage`, `SlabAllocator`) -/

/-- A portion of a slab used by one object (Go `Fragment`). -/
structure Fragment where
  offset : Int
  size : Int
deriving DecidableEq

/-- A large block that can contain multiple objects (Go `Slab`). -/
structure Slab where
  offset : Int
  size : Int
  used : Int
  fragments : List Fragment
deriving DecidableEq

/-- Allocator state (Go `SlabAllocator`).  `slabs` is the map from slab
offset to slab, represented as a list in insertion order. -/
structure SlabAllocator where
  slabSize : Int
  totalSize : Int
  slabs : List Slab
  usedBytes : Int
  nextOffset : Int
deriving DecidableEq

/-- Go `NewSlabAllocator(totalSize, slabSize)`. -/
def NewSlabAllocator (totalSize slabSize : Int) : SlabAllocator :=
  { slabSize := slabSize
    totalSize := totalSize
    slabs := []
    usedBytes := 0
    nextOffset := 0 }

/-- One step of the small-object scan: look up the slab stored under key
`off` and, when it was created for small objects (`size == slabSize`) and
has room, append the fragment at `slab.offset + slab.used`.  Returns the
fragment offset and the updated slab list, or `none` when this key does
not accept the object. -/
def placeAt (slabs : List Slab) (off : Int) (slabSize size : Int) :
    Option (Int × List Slab) :=
  match slabs with
  | [] => none
  | s :: rest =>
    if s.offset = off then
      if s.size = slabSize ∧ s.used + size ≤ s.size then
        some (s.offset + s.used,
          { s with
            fragments := s.fragments ++ [⟨s.offset + s.used, size⟩]
            used := s.used + size } :: rest)
      else none
    else
      (placeAt rest off slabSize size).map (fun p => (p.1, s :: p.2))

/-- The small-object scan of `Allocate`: try the slab keys in the order the
Go map range loop produced them; the first fitting slab accepts the
object. -/
def scanSmall (slabs : List Slab) (slabSize size : Int) :
    List Int → Option (Int × List Slab)
  | [] => none
  | off :: rest =>
    match placeAt slabs off slabSize size with
    | some r => some r
    | none => scanSmall slabs slabSize size rest

/-- Go `SlabAllocator.Allocate(size)`.  `order` is the sequence of slab-map
keys produced by the `for off := range a.slabs` loop (Go map iteration
order is unspecified). -/
def SlabAllocator.allocate (a : SlabAllocator) (order : List Int) (size : Int) :
    Except String (Int × SlabAllocator) :=
  if size ≤ 0 then .error "invalid size"
  else if a.slabSize ≤ size then
    -- large objects: allocate dedicated slab(s)
    let slabsNeeded := (size + a.slabSize - 1) / a.slabSize
    let totalSize := slabsNeeded * a.slabSize
    if a.totalSize < a.nextOffset + totalSize then .error "out of space"
    else
      .ok (a.nextOffset,
        { a with
          slabs := a.slabs ++
            [⟨a.nextOffset, totalSize, size, [⟨a.nextOffset, size⟩]⟩]
          nextOffset := a.nextOffset + totalSize
          usedBytes := a.usedBytes + size })
  else
    match scanSmall a.slabs a.slabSize size order with
    | some (fragmentOffset, slabs) =>
      .ok (fragmentOffset, { a with slabs := slabs, usedBytes := a.usedBytes + size })
    | none =>
      -- no existing slab has space, allocate new slab
      if a.totalSize < a.nextOffset + a.slabSize then .error "out of space"
      else
        .ok (a.nextOffset,
          { a with
            slabs := a.slabs ++
              [⟨a.nextOffset, a.slabSize, size, [⟨a.nextOffset, size⟩]⟩]
            nextOffset := a.nextOffset + a.slabSize
            usedBytes := a.usedBytes + size })

/-- Remove the first fragment matching exactly `(off, size)` (the removal
loop inside Go `SlabAllocator.Free`). -/
def removeFragment (off size : Int) : List Fragment → Option (List Fragment)
  | [] => none
  | f :: rest =>
    if f.offset = off ∧ f.size = size then some rest
    else (removeFragment off size rest).map (fun l => f :: l)

/-- Locate the first slab whose byte range contains `off` and remove the
matching fragment from it (Go `SlabAllocator.Free` body). -/
def freeSlabs (off size : Int) : List Slab → Except String (List Slab)
  | [] => .error "offset not found"
  | s :: rest =>
    if s.offset ≤ off ∧ off < s.offset + s.size then
      match removeFragment off size s.fragments with
      | some fragments =>
        .ok ({ s with fragments := fragments, used := s.used - size } :: rest)
      | none => .error "fragment not found"
    else
      (freeSlabs off size rest).map (fun l => s :: l)

/-- Go `SlabAllocator.Free(offset, size)`. -/
def SlabAllocator.free (a : SlabAllocator) (offset size : Int) :
    Except String SlabAllocator :=
  match freeSlabs offset size a.slabs with
  | .ok slabs => .ok { a with slabs := slabs, usedBytes := a.usedBytes - size }
  | .error e => .error e

/-- All live fragments, across all slabs. -/
def SlabAllocator.liveFragments (a : SlabAllocator) : List Fragment :=
  (a.slabs.map Slab.fragments).flatten

/-- Sum of the sizes of a fragment list. -/
def sumSizes (l : List Fragment) : Int := (l.map Fragment.size).sum

/-- One client call to the allocator: `alloc` records the map iteration
order its scan observed. -/
inductive AllocOp where
  | alloc (order : List Int) (size : Int)
  | free (offset size : Int)
deriving DecidableEq

/-- Apply one call; a call that returns an error leaves the state
unchanged (the Go methods mutate nothing on their error paths). -/
def applyOp (a : SlabAllocator) : AllocOp → SlabAllocator
  | .alloc order size =>
    match a.allocate order size with
    | .ok p => p.2
    | .error _ => a
  | .free off size =>
    match a.free off size with
    | .ok a' => a'
    | .error _ => a

/-- Run a sequence of allocator calls. -/
def runOps (a : SlabAllocator) (ops : List AllocOp) : SlabAllocator :=
  ops.foldl applyOp a

/-- Sum of `used` over a slab list. -/
def sumUsed (l : List Slab) : Int := (l.map Slab.used).sum

/-- Sum of allocated `size` over a slab list. -/
def sumSlabSizes (l : List Slab) : Int := (l.map Slab.size).sum

/-- Byte ranges of two slabs do not intersect. -/
def SlabRangesDisjoint (s t : Slab) : Prop :=
  s.offset + s.size ≤ t.offset ∨ t.offset + t.size ≤ s.offset

instance : DecidableRel SlabRangesDisjoint := fun s t => by
  unfold SlabRangesDisjoint; infer_instance

/-- The allocator state invariant: positive slab size, the high-water mark
`nextOffset` within the budget and equal to the sum of slab sizes,
`usedBytes` equal to the sum of per-slab `used`, each `used` equal to the
sum of its fragment sizes and within the slab size, every slab range
inside `[0, nextOffset)`, and slab ranges pairwise disjoint. -/
def SlabInv (a : SlabAllocator) : Prop :=
  0 < a.slabSize ∧
  0 ≤ a.nextOffset ∧
  a.nextOffset ≤ a.totalSize ∧
  sumSlabSizes a.slabs = a.nextOffset ∧
  sumUsed a.slabs = a.usedBytes ∧
  (∀ s ∈ a.slabs, s.used = sumSizes s.fragments) ∧
  (∀ s ∈ a.slabs, ∀ f ∈ s.fragments, 0 < f.size) ∧
  (∀ s ∈ a.slabs, 0 ≤ s.used ∧ s.used ≤ s.size) ∧
  (∀ s ∈ a.slabs, 0 ≤ s.offset ∧ s.offset + s.size ≤ a.nextOffset) ∧
  a.slabs.Pairwise SlabRangesDisjoint

theorem slabInv_new {T S : Int} (hT : 0 ≤ T) (hS : 0 < S) :
    SlabInv (NewSlabAllocator T S) := by
  refine ⟨hS, le_refl 0, hT, rfl, rfl, ?_, ?_, ?_, ?_, List.Pairwise.nil⟩ <;>
    exact fun s hs => by simp [NewSlabAllocator] at hs

theorem sumUsed_append (l1 l2 : List Slab) :
    sumUsed (l1 ++ l2) = sumUsed l1 + sumUsed l2 := by
  simp [sumUsed]

theorem sumUsed_cons (s : Slab) (l : List Slab) :
    sumUsed (s :: l) = s.used + sumUsed l := by
  simp [sumUsed]

theorem sumSlabSizes_append (l1 l2 : List Slab) :
    sumSlabSizes (l1 ++ l2) = sumSlabSizes l1 + sumSlabSizes l2 := by
  simp [sumSlabSizes]

theorem sumSlabSizes_cons (s : Slab) (l : List Slab) :
    sumSlabSizes (s :: l) = s.size + sumSlabSizes l := by
  simp [sumSlabSizes]

theorem sumSizes_append (l1 l2 : List Fragment) :
    sumSizes (l1 ++ l2) = sumSizes l1 + sumSizes l2 := by
  simp [sumSizes]

theorem sumSizes_cons (f : Fragment) (l : List Fragment) :
    sumSizes (f :: l) = f.size + sumSizes l := by
  simp [sumSizes]

theorem sumSizes_nonneg {l : List Fragment} (h : ∀ f ∈ l, 0 < f.size) :
    0 ≤ sumSizes l := by
  induction l with
  | nil => simp [sumSizes]
  | cons f rest ih =>
    rw [sumSizes_cons]
    have hf := h f (List.mem_cons_self f rest)
    have := ih fun g hg => h g (List.mem_cons_of_mem f hg)
    omega

/-- Rounding a positive `size` up to a multiple of `S` does not shrink it:
`size ≤ ((size + S - 1) / S) * S` for `0 < S`. -/
theorem le_ceilDiv_mul {size S : Int} (hS : 0 < S) :
    size ≤ ((size + S - 1) / S) * S := by
  have hmod := Int.ediv_add_emod (size + S - 1) S
  have h0 : 0 ≤ (size + S - 1) % S := Int.emod_nonneg _ (by omega)
  have h1 : (size + S - 1) % S < S := Int.emod_lt_of_pos _ hS
  have : ((size + S - 1) / S) * S = S * ((size + S - 1) / S) := mul_comm _ _
  omega

/-- Decomposition of a successful `placeAt`: the slab stored under the key
is found, satisfies the packing conditions, and only it is modified. -/
theorem placeAt_eq_some {slabs : List Slab} {off S sz : Int} {fo : Int}
    {slabs' : List Slab} (h : placeAt slabs off S sz = some (fo, slabs')) :
    ∃ l1 s l2,
      slabs = l1 ++ s :: l2 ∧
      slabs' = l1 ++
        { s with
          fragments := s.fragments ++ [⟨s.offset + s.used, sz⟩]
          used := s.used + sz } :: l2 ∧
      fo = s.offset + s.used ∧ s.size = S ∧ s.used + sz ≤ s.size := by
  induction slabs generalizing slabs' with
  | nil => simp [placeAt] at h
  | cons s rest ih =>
    by_cases hoff : s.offset = off
    · rw [placeAt, if_pos hoff] at h
      by_cases hfit : s.size = S ∧ s.used + sz ≤ s.size
      · rw [if_pos hfit] at h
        injection h with h'
        injection h' with h1 h2
        exact ⟨[], s, rest, rfl, h2.symm, h1.symm, hfit.1, hfit.2⟩
      · rw [if_neg hfit] at h
        cases h
    · rw [placeAt, if_neg hoff] at h
      rcases Option.map_eq_some'.mp h with ⟨p, hrest, hpair⟩
      obtain ⟨fo', rest'⟩ := p
      injection hpair with h1 h2
      subst h1
      rcases ih hrest with ⟨l1, t, l2, heq, heq', hfo, hsz, hfit⟩
      refine ⟨s :: l1, t, l2, by rw [heq]; rfl, ?_, hfo, hsz, hfit⟩
      rw [← h2, heq']
      rfl

/-- Decomposition of a successful small-object scan. -/
theorem scanSmall_eq_some {slabs : List Slab} {S sz : Int} {order : List Int}
    {fo : Int} {slabs' : List Slab}
    (h : scanSmall slabs S sz order = some (fo, slabs')) :
    ∃ l1 s l2,
      slabs = l1 ++ s :: l2 ∧
      slabs' = l1 ++
        { s with
          fragments := s.fragments ++ [⟨s.offset + s.used, sz⟩]
          used := s.used + sz } :: l2 ∧
      fo = s.offset + s.used ∧ s.size = S ∧ s.used + sz ≤ s.size := by
  induction order with
  | nil => simp [scanSmall] at h
  | cons off rest ih =>
    rw [scanSmall] at h
    cases hp : placeAt slabs off S sz with
    | some r =>
      rw [hp] at h
      cases h
      exact placeAt_eq_some hp
    | none =>
      rw [hp] at h
      exact ih h

/-- Decomposition of a successful `removeFragment`: exactly the first
fragment matching `(off, sz)` is removed. -/
theorem removeFragment_eq_some {off sz : Int} {frags frags' : List Fragment}
    (h : removeFragment off sz frags = some frags') :
    ∃ f1 f f2, frags = f1 ++ f :: f2 ∧ f.offset = off ∧ f.size = sz ∧
      frags' = f1 ++ f2 := by
  induction frags generalizing frags' with
  | nil => simp [removeFragment] at h
  | cons f rest ih =>
    by_cases hf : f.offset = off ∧ f.size = sz
    · rw [removeFragment, if_pos hf] at h
      cases h
      exact ⟨[], f, rest, rfl, hf.1, hf.2, rfl⟩
    · rw [removeFragment, if_neg hf] at h
      rcases Option.map_eq_some'.mp h with ⟨rest', hrest, hcons⟩
      rcases ih hrest with ⟨f1, g, f2, heq, ho, hs, heq'⟩
      exact ⟨f :: f1, g, f2, by rw [heq]; rfl, ho, hs, by rw [← hcons, heq']; rfl⟩

/-- A fragment matching `(off, sz)` guarantees `removeFragment` succeeds. -/
theorem removeFragment_isSome {off sz : Int} {frags : List Fragment}
    (h : ∃ f ∈ frags, f.offset = off ∧ f.size = sz) :
    (removeFragment off sz frags).isSome := by
  induction frags with
  | nil => rcases h with ⟨f, hf, _⟩; cases hf
  | cons f rest ih =>
    by_cases hf : f.offset = off ∧ f.size = sz
    · rw [removeFragment, if_pos hf]; rfl
    · rw [removeFragment, if_neg hf]
      rcases h with ⟨g, hg, hgp⟩
      rcases List.mem_cons.mp hg with hgf | hgr
      · exact absurd (hgf ▸ hgp) hf
      · have := ih ⟨g, hgr, hgp⟩
        rcases Option.isSome_iff_exists.mp this with ⟨l, hl⟩
        rw [hl]
        rfl

/-- Decomposition of a successful `freeSlabs`: the first slab whose range
contains `off` is found and only it is modified. -/
theorem freeSlabs_eq_ok {off sz : Int} {slabs slabs' : List Slab}
    (h : freeSlabs off sz slabs = .ok slabs') :
    ∃ l1 s l2 frags',
      slabs = l1 ++ s :: l2 ∧
      removeFragment off sz s.fragments = some frags' ∧
      s.offset ≤ off ∧ off < s.offset + s.size ∧
      slabs' = l1 ++ { s with fragments := frags', used := s.used - sz } :: l2 := by
  induction slabs generalizing slabs' with
  | nil => simp [freeSlabs] at h
  | cons s rest ih =>
    by_cases hin : s.offset ≤ off ∧ off < s.offset + s.size
    · rw [freeSlabs, if_pos hin] at h
      cases hr : removeFragment off sz s.fragments with
      | some frags' =>
        rw [hr] at h
        cases h
        exact ⟨[], s, rest, frags', rfl, hr, hin.1, hin.2, rfl⟩
      | none => rw [hr] at h; cases h
    · rw [freeSlabs, if_neg hin] at h
      cases hrest : freeSlabs off sz rest with
      | ok rest' =>
        rw [hrest] at h
        cases h
        rcases ih hrest with ⟨l1, t, l2, frags', heq, hrf, h1, h2, heq'⟩
        exact ⟨s :: l1, t, l2, frags', by rw [heq]; rfl, hrf, h1, h2, by rw [heq']; rfl⟩
      | error e => rw [hrest] at h; cases h

/-- Replacing the middle slab by one with the same offset and size
preserves range disjointness. -/
theorem pairwise_middle_congr {l1 l2 : List Slab} {s s' : Slab}
    (hoff : s'.offset = s.offset) (hsize : s'.size = s.size)
    (h : (l1 ++ s :: l2).Pairwise SlabRangesDisjoint) :
    (l1 ++ s' :: l2).Pairwise SlabRangesDisjoint := by
  rw [List.pairwise_append] at h ⊢
  obtain ⟨h1, h2, h3⟩ := h
  rw [List.pairwise_cons] at h2 ⊢
  refine ⟨h1, ⟨?_, h2.2⟩, ?_⟩
  · intro t ht
    have := h2.1 t ht
    unfold SlabRangesDisjoint at this ⊢
    omega
  · intro x hx b hb
    rcases List.mem_cons.mp hb with hbs | hb2
    · subst hbs
      have := h3 x hx s (List.mem_cons_self s l2)
      unfold SlabRangesDisjoint at this ⊢
      omega
    · exact h3 x hx b (List.mem_cons_of_mem s hb2)

@[simp] theorem sumSlabSizes_nil : sumSlabSizes [] = 0 := rfl

@[simp] theorem sumUsed_nil : sumUsed [] = 0 := rfl

@[simp] theorem sumSizes_nil : sumSizes [] = 0 := rfl

/-- A successful `allocate` either appends a fresh slab (dedicated or new
small slab) or packs the object into an existing small slab. -/
theorem allocate_eq_ok {a : SlabAllocator} {order : List Int} {size off : Int}
    {a1 : SlabAllocator} (hS : 0 < a.slabSize)
    (h : a.allocate order size = .ok (off, a1)) :
    0 < size ∧
    ((∃ tsize, 0 < tsize ∧ size ≤ tsize ∧ a.nextOffset + tsize ≤ a.totalSize ∧
        off = a.nextOffset ∧
        a1 = { a with
          slabs := a.slabs ++ [⟨a.nextOffset, tsize, size, [⟨a.nextOffset, size⟩]⟩]
          nextOffset := a.nextOffset + tsize
          usedBytes := a.usedBytes + size }) ∨
      (∃ l1 s l2, a.slabs = l1 ++ s :: l2 ∧ off = s.offset + s.used ∧
        s.size = a.slabSize ∧ s.used + size ≤ s.size ∧
        a1 = { a with
          slabs := l1 ++
            { s with
              fragments := s.fragments ++ [⟨s.offset + s.used, size⟩]
              used := s.used + size } :: l2
          usedBytes := a.usedBytes + size })) := by
  unfold SlabAllocator.allocate at h
  by_cases h0 : size ≤ 0
  · rw [if_pos h0] at h; cases h
  rw [if_neg h0] at h
  refine ⟨by omega, ?_⟩
  by_cases hlarge : a.slabSize ≤ size
  · rw [if_pos hlarge] at h
    by_cases hcap : a.totalSize < a.nextOffset + (size + a.slabSize - 1) / a.slabSize * a.slabSize
    · rw [if_pos hcap] at h; cases h
    · rw [if_neg hcap] at h
      injection h with h'
      injection h' with h1 h2
      refine Or.inl ⟨(size + a.slabSize - 1) / a.slabSize * a.slabSize, ?_, ?_, by omega,
        h1.symm, h2.symm⟩
      · have := @le_ceilDiv_mul size a.slabSize hS
        omega
      · exact le_ceilDiv_mul hS
  · rw [if_neg hlarge] at h
    cases hscan : scanSmall a.slabs a.slabSize size order with
    | some r =>
      rw [hscan] at h
      obtain ⟨fo, slabs'⟩ := r
      injection h with h'
      injection h' with h1 h2
      rcases scanSmall_eq_some hscan with ⟨l1, s, l2, heq, heq', hfo, hsz, hfit⟩
      exact Or.inr ⟨l1, s, l2, heq, by omega, hsz, hfit, by rw [← h2, heq']⟩
    | none =>
      rw [hscan] at h
      by_cases hcap : a.totalSize < a.nextOffset + a.slabSize
      · rw [if_pos hcap] at h; cases h
      · rw [if_neg hcap] at h
        injection h with h'
        injection h' with h1 h2
        exact Or.inl ⟨a.slabSize, hS, by omega, by omega, h1.symm, h2.symm⟩

/-- Appending a fresh slab whose single fragment covers `size` bytes
preserves the invariant. -/
theorem appendSlab_inv {a : SlabAllocator} {size tsize : Int} (hinv : SlabInv a)
    (hsz : 0 < size) (hle : size ≤ tsize)
    (hcap : a.nextOffset + tsize ≤ a.totalSize) :
    SlabInv { a with
      slabs := a.slabs ++ [⟨a.nextOffset, tsize, size, [⟨a.nextOffset, size⟩]⟩]
      nextOffset := a.nextOffset + tsize
      usedBytes := a.usedBytes + size } := by
  obtain ⟨hS, hn0, hnT, hsizes, husds, hueq, hfpos, hub, hrange, hdisj⟩ := hinv
  unfold SlabInv
  dsimp only
  refine ⟨hS, by omega, hcap, ?_, ?_, ?_, ?_, ?_, ?_, ?_⟩
  · rw [sumSlabSizes_append, sumSlabSizes_cons]
    simp only [sumSlabSizes_nil]
    omega
  · rw [sumUsed_append, sumUsed_cons]
    dsimp only [sumUsed_nil]
    omega
  · intro x hx
    rcases List.mem_append.mp hx with hx | hx
    · exact hueq x hx
    · rcases List.mem_singleton.mp hx with rfl
      simp [sumSizes]
  · intro x hx
    rcases List.mem_append.mp hx with hx | hx
    · exact hfpos x hx
    · rcases List.mem_singleton.mp hx with rfl
      intro f hf
      rcases List.mem_singleton.mp hf with rfl
      exact hsz
  · intro x hx
    rcases List.mem_append.mp hx with hx | hx
    · exact hub x hx
    · rcases List.mem_singleton.mp hx with rfl
      exact ⟨le_of_lt hsz, hle⟩
  · intro x hx
    rcases List.mem_append.mp hx with hx | hx
    · have := hrange x hx
      constructor <;> omega
    · rcases List.mem_singleton.mp hx with rfl
      exact ⟨hn0, le_refl _⟩
  · rw [List.pairwise_append]
    refine ⟨hdisj, by simp, ?_⟩
    intro x hx b hb
    rcases List.mem_singleton.mp hb with rfl
    exact Or.inl (hrange x hx).2

/-- Packing a small object into an existing small slab preserves the
invariant. -/
theorem packSlab_inv {a : SlabAllocator} {l1 l2 : List Slab} {s : Slab} {sz : Int}
    (hinv : SlabInv a) (hslabs : a.slabs = l1 ++ s :: l2)
    (hsz : 0 < sz) (hfit : s.used + sz ≤ s.size) :
    SlabInv { a with
      slabs := l1 ++
        { s with
          fragments := s.fragments ++ [⟨s.offset + s.used, sz⟩]
          used := s.used + sz } :: l2
      usedBytes := a.usedBytes + sz } := by
  obtain ⟨hS, hn0, hnT, hsizes, husds, hueq, hfpos, hub, hrange, hdisj⟩ := hinv
  rw [hslabs] at hsizes husds hueq hfpos hub hrange hdisj
  have hsmem : s ∈ l1 ++ s :: l2 :=
    List.mem_append.mpr (Or.inr (List.mem_cons_self s l2))
  unfold SlabInv
  dsimp only
  refine ⟨hS, hn0, hnT, ?_, ?_, ?_, ?_, ?_, ?_, ?_⟩
  · rw [sumSlabSizes_append, sumSlabSizes_cons] at hsizes ⊢
    exact hsizes
  · rw [sumUsed_append, sumUsed_cons] at husds ⊢
    dsimp only
    omega
  · intro x hx
    rcases List.mem_append.mp hx with hx | hx
    · exact hueq x (List.mem_append.mpr (Or.inl hx))
    · rcases List.mem_cons.mp hx with rfl | hx
      · have := hueq s hsmem
        rw [sumSizes_append, sumSizes_cons]
        simp only [sumSizes_nil]
        omega
      · exact hueq x (List.mem_append.mpr (Or.inr (List.mem_cons_of_mem s hx)))
  · intro x hx
    rcases List.mem_append.mp hx with hx | hx
    · exact hfpos x (List.mem_append.mpr (Or.inl hx))
    · rcases List.mem_cons.mp hx with rfl | hx
      · intro f hf
        rcases List.mem_append.mp hf with hf | hf
        · exact hfpos s hsmem f hf
        · rcases List.mem_singleton.mp hf with rfl
          exact hsz
      · exact hfpos x (List.mem_append.mpr (Or.inr (List.mem_cons_of_mem s hx)))
  · intro x hx
    rcases List.mem_append.mp hx with hx | hx
    · exact hub x (List.mem_append.mpr (Or.inl hx))
    · rcases List.mem_cons.mp hx with rfl | hx
      · have hb := hub s hsmem
        refine ⟨?_, hfit⟩
        show 0 ≤ s.used + sz
        omega
      · exact hub x (List.mem_append.mpr (Or.inr (List.mem_cons_of_mem s hx)))
  · intro x hx
    rcases List.mem_append.mp hx with hx | hx
    · exact hrange x (List.mem_append.mpr (Or.inl hx))
    · rcases List.mem_cons.mp hx with rfl | hx
      · exact hrange s hsmem
      · exact hrange x (List.mem_append.mpr (Or.inr (List.mem_cons_of_mem s hx)))
  · exact pairwise_middle_congr (s := s) rfl rfl hdisj

/-- A successful `allocate` preserves the allocator invariant. -/
theorem allocate_inv {a : SlabAllocator} {order : List Int} {size off : Int}
    {a1 : SlabAllocator} (hinv : SlabInv a)
    (h : a.allocate order size = .ok (off, a1)) : SlabInv a1 := by
  obtain ⟨hsz, hcase⟩ := allocate_eq_ok hinv.1 h
  rcases hcase with ⟨tsize, ht0, hle, hcap, _, ha1⟩ | ⟨l1, s, l2, hslabs, _, _, hfit, ha1⟩
  · subst ha1
    exact appendSlab_inv hinv hsz hle hcap
  · subst ha1
    exact packSlab_inv hinv hslabs hsz hfit

/-- A successful `free` preserves the allocator invariant. -/
theorem free_inv {a a' : SlabAllocator} {off sz : Int} (hinv : SlabInv a)
    (h : a.free off sz = .ok a') : SlabInv a' := by
  unfold SlabAllocator.free at h
  cases hfs : freeSlabs off sz a.slabs with
  | error e => rw [hfs] at h; cases h
  | ok slabs' =>
    rw [hfs] at h
    cases h
    obtain ⟨hS, hn0, hnT, hsizes, husds, hueq, hfpos, hub, hrange, hdisj⟩ := hinv
    rcases freeSlabs_eq_ok hfs with ⟨l1, s, l2, frags', heq, hrf, _, _, heq'⟩
    rcases removeFragment_eq_some hrf with ⟨f1, f, f2, hfr, hfo, hfsz, hfr'⟩
    rw [heq] at hsizes husds hueq hfpos hub hrange hdisj
    subst heq'
    have hsmem : s ∈ l1 ++ s :: l2 :=
      List.mem_append.mpr (Or.inr (List.mem_cons_self s l2))
    have hfmem : f ∈ s.fragments := by
      rw [hfr]
      exact List.mem_append.mpr (Or.inr (List.mem_cons_self f f2))
    have hfpos' : 0 < sz := hfsz ▸ hfpos s hsmem f hfmem
    have hused : s.used = sumSizes f1 + sz + sumSizes f2 := by
      have := hueq s hsmem
      rw [hfr, sumSizes_append, sumSizes_cons] at this
      omega
    unfold SlabInv
    dsimp only
    refine ⟨hS, hn0, hnT, ?_, ?_, ?_, ?_, ?_, ?_, ?_⟩
    · rw [sumSlabSizes_append, sumSlabSizes_cons] at hsizes ⊢
      exact hsizes
    · rw [sumUsed_append, sumUsed_cons] at husds ⊢
      dsimp only
      omega
    · intro x hx
      rcases List.mem_append.mp hx with hx | hx
      · exact hueq x (List.mem_append.mpr (Or.inl hx))
      · rcases List.mem_cons.mp hx with rfl | hx
        · rw [hfr', sumSizes_append]
          dsimp only
          omega
        · exact hueq x (List.mem_append.mpr (Or.inr (List.mem_cons_of_mem s hx)))
    · intro x hx
      rcases List.mem_append.mp hx with hx | hx
      · exact hfpos x (List.mem_append.mpr (Or.inl hx))
      · rcases List.mem_cons.mp hx with rfl | hx
        · intro g hg
          refine hfpos s hsmem g ?_
          rw [hfr', hfr] at *
          rcases List.mem_append.mp hg with hg | hg
          · exact List.mem_append.mpr (Or.inl hg)
          · exact List.mem_append.mpr (Or.inr (List.mem_cons_of_mem f hg))
        · exact hfpos x (List.mem_append.mpr (Or.inr (List.mem_cons_of_mem s hx)))
    · intro x hx
      rcases List.mem_append.mp hx with hx | hx
      · exact hub x (List.mem_append.mpr (Or.inl hx))
      · rcases List.mem_cons.mp hx with rfl | hx
        · have hb := hub s hsmem
          have h1 : 0 ≤ sumSizes f1 :=
            sumSizes_nonneg fun g hg => hfpos s hsmem g (by
              rw [hfr]; exact List.mem_append.mpr (Or.inl hg))
          have h2 : 0 ≤ sumSizes f2 :=
            sumSizes_nonneg fun g hg => hfpos s hsmem g (by
              rw [hfr]; exact List.mem_append.mpr (Or.inr (List.mem_cons_of_mem f hg)))
          constructor <;> dsimp only <;> omega
        · exact hub x (List.mem_append.mpr (Or.inr (List.mem_cons_of_mem s hx)))
    · intro x hx
      rcases List.mem_append.mp hx with hx | hx
      · exact hrange x (List.mem_append.mpr (Or.inl hx))
      · rcases List.mem_cons.mp hx with rfl | hx
        · exact hrange s hsmem
        · exact hrange x (List.mem_append.mpr (Or.inr (List.mem_cons_of_mem s hx)))
    · exact pairwise_middle_congr (s := s) rfl rfl hdisj

/-- Every allocator call (successful or failed) preserves the invariant. -/
theorem applyOp_inv {a : SlabAllocator} (hinv : SlabInv a) (op : AllocOp) :
    SlabInv (applyOp a op) := by
  cases op with
  | alloc order size =>
    simp only [applyOp]
    cases h : a.allocate order size with
    | ok p => exact allocate_inv hinv h
    | error e => exact hinv
  | free off size =>
    simp only [applyOp]
    cases h : a.free off size with
    | ok a' => exact free_inv hinv h
    | error e => exact hinv

/-- The invariant holds after any sequence of allocator calls. -/
theorem runOps_inv {a : SlabAllocator} (hinv : SlabInv a) (ops : List AllocOp) :
    SlabInv (runOps a ops) := by
  induction ops generalizing a with
  | nil => exact hinv
  | cons op rest ih => exact ih (applyOp_inv hinv op)

/-- `freeSlabs` succeeds as soon as some slab range contains `off` and
every slab range containing `off` holds a matching fragment. -/
theorem freeSlabs_ok_of_mem {slabs : List Slab} {off sz : Int}
    (huniq : ∀ s ∈ slabs, (s.offset ≤ off ∧ off < s.offset + s.size) →
        ∃ f ∈ s.fragments, f.offset = off ∧ f.size = sz)
    (hex : ∃ s ∈ slabs, s.offset ≤ off ∧ off < s.offset + s.size) :
    ∃ slabs', freeSlabs off sz slabs = .ok slabs' := by
  induction slabs with
  | nil => rcases hex with ⟨s, hs, _⟩; cases hs
  | cons s rest ih =>
    by_cases hin : s.offset ≤ off ∧ off < s.offset + s.size
    · rw [freeSlabs, if_pos hin]
      have := removeFragment_isSome (huniq s (List.mem_cons_self s rest) hin)
      rcases Option.isSome_iff_exists.mp this with ⟨frags', hf⟩
      rw [hf]
      exact ⟨_, rfl⟩
    · rw [freeSlabs, if_neg hin]
      rcases hex with ⟨t, ht, htin⟩
      rcases List.mem_cons.mp ht with rfl | ht2
      · exact absurd htin hin
      rcases ih (fun u hu => huniq u (List.mem_cons_of_mem s hu))
        ⟨t, ht2, htin⟩ with ⟨slabs', hs'⟩
      rw [hs']
      exact ⟨_, rfl⟩

/-- Freeing exactly what `allocate` just returned always succeeds and
restores `usedBytes` to its pre-allocation value. -/
theorem allocate_then_free {a : SlabAllocator} {order : List Int} {size off : Int}
    {a1 : SlabAllocator} (hinv : SlabInv a)
    (h : a.allocate order size = .ok (off, a1)) :
    ∃ a2, a1.free off size = .ok a2 ∧ a2.usedBytes = a.usedBytes := by
  obtain ⟨hS, hn0, hnT, hsizes, husds, hueq, hfpos, hub, hrange, hdisj⟩ := hinv
  obtain ⟨hsz, hcase⟩ := allocate_eq_ok hS h
  have key : a1.usedBytes = a.usedBytes + size ∧
      ∃ slabs', freeSlabs off size a1.slabs = .ok slabs' := by
    rcases hcase with ⟨tsize, ht0, hle, hcap, rfl, rfl⟩ |
      ⟨l1, s, l2, hslabs, rfl, hssize, hfit, rfl⟩
    · refine ⟨rfl, ?_⟩
      apply freeSlabs_ok_of_mem
      · intro t ht htin
        dsimp only at ht
        rcases List.mem_append.mp ht with ht | ht
        · exfalso
          have := (hrange t ht).2
          omega
        · rcases List.mem_singleton.mp ht with rfl
          exact ⟨⟨a.nextOffset, size⟩, List.mem_singleton.mpr rfl, rfl, rfl⟩
      · refine ⟨⟨a.nextOffset, tsize, size, [⟨a.nextOffset, size⟩]⟩, ?_, le_refl _, ?_⟩
        · dsimp only
          exact List.mem_append.mpr (Or.inr (List.mem_singleton.mpr rfl))
        · dsimp only
          omega
    · rw [hslabs] at hdisj hub
      have hsmem : s ∈ l1 ++ s :: l2 :=
        List.mem_append.mpr (Or.inr (List.mem_cons_self s l2))
      have hubs := hub s hsmem
      rw [List.pairwise_append] at hdisj
      obtain ⟨hd1, hd2, hd3⟩ := hdisj
      rw [List.pairwise_cons] at hd2
      refine ⟨rfl, ?_⟩
      apply freeSlabs_ok_of_mem
      · intro t ht htin
        dsimp only at ht
        rcases List.mem_append.mp ht with ht | ht
        · exfalso
          have := hd3 t ht s (List.mem_cons_self s l2)
          unfold SlabRangesDisjoint at this
          omega
        · rcases List.mem_cons.mp ht with rfl | ht2
          · refine ⟨⟨s.offset + s.used, size⟩, ?_, rfl, rfl⟩
            dsimp only
            exact List.mem_append.mpr (Or.inr (List.mem_singleton.mpr rfl))
          · exfalso
            have := hd2.1 t ht2
            unfold SlabRangesDisjoint at this
            omega
      · refine ⟨{ s with
            fragments := s.fragments ++ [⟨s.offset + s.used, size⟩]
            used := s.used + size }, ?_, ?_, ?_⟩
        · dsimp only
          exact List.mem_append.mpr (Or.inr (List.mem_cons_self _ l2))
        · dsimp only
          omega
        · dsimp only
          omega
  obtain ⟨husd1, slabs', hok⟩ := key
  refine ⟨{ a1 with slabs := slabs', usedBytes := a1.usedBytes - size }, ?_, ?_⟩
  · unfold SlabAllocator.free
    rw [hok]
  · dsimp only
    omega

example :
    (NewSlabAllocator 64 16).allocate [] 4 =
      .ok (0, ⟨16, 64, [⟨0, 16, 4, [⟨0, 4⟩]⟩], 4, 16⟩) := by decide

example :
    runOps (NewSlabAllocator 64 16) [.alloc [] 4, .alloc [0] 4] =
      ⟨16, 64, [⟨0, 16, 8, [⟨0, 4⟩, ⟨4, 4⟩]⟩], 8, 16⟩ := by decide

/-! ## Object service (`internal/object/service.go`) -/

/-- Object descriptor (Go `Object`).  Timestamps, checksums, the ETag and
the content type are omitted: no verified claim mentions them. -/
structure ObjDesc where
  key : String
  bucketName : String
  versionID : String
  size : Int
  offset : Int
deriving DecidableEq

/-- State seen by the object service: the engine allocator, the engine
write log (each entry one `engine.Write(offset, data)` call, in order),
and the metadata repository.  `FileRepository` keeps one descriptor file
per (bucket, key) under `objects/<bucket>/<key>.meta`; the tree is the map
from (bucket, key) to the descriptor, represented as an association
list. -/
structure SysState where
  alloc : SlabAllocator
  store : List (Int × List Nat)
  repo : List ((String × String) × ObjDesc)
deriving DecidableEq

/-- One result of a `Read` call on the input stream handed to `PutObject`:
a chunk of bytes, or a read error.  End of the list is `io.EOF`. -/
inductive StreamStep where
  | chunk (data : List Nat)
  | fail
deriving DecidableEq

/-- The streaming loop of `PutObject`: repeatedly read a chunk, and while
`n > 0` write it to the engine at the running offset; stop at end-of-
stream, on a read error, or on the first failing write.  Returns the
engine writes performed (in order) and the outcome.  `failIdx = some i`
injects an engine write error at the i-th write call. -/
def streamWrites : List StreamStep → Int → Nat → Option Nat →
    List (Int × List Nat) × Except String Unit
  | [], _, _, _ => ([], .ok ())
  | .fail :: _, _, _, _ => ([], .error "read error")
  | .chunk data :: rest, off, idx, failIdx =>
    if data.length = 0 then streamWrites rest off idx failIdx
    else if failIdx = some idx then ([], .error "write error")
    else
      let r := streamWrites rest (off + data.length) (idx + 1) failIdx
      ((off, data) :: r.1, r.2)

/-- Go `FileRepository.Put`: write the descriptor file for
(bucket, key), atomically replacing any prior one. -/
def repoPut (repo : List ((String × String) × ObjDesc)) (obj : ObjDesc) :
    List ((String × String) × ObjDesc) :=
  ((obj.bucketName, obj.key), obj) ::
    repo.filter (fun e => !decide (e.1 = (obj.bucketName, obj.key)))

/-- Look up the descriptor stored under (bucket, key). -/
def repoFind (repo : List ((String × String) × ObjDesc)) (bucket key : String) :
    Option ObjDesc :=
  (repo.find? (fun e => decide (e.1 = (bucket, key)))).map Prod.snd

/-- Go `Service.PutObject(ctx, bucket, key, data, size, contentType)`.
`versionID` stands for the freshly generated `GenerateVersionID()`;
`order` is the slab-map iteration order observed by `engine.Allocate`;
`metaOk = false` injects a metadata-commit failure (`FileRepository.Put`
writes a temp file and renames, so a failed commit leaves the repository
unchanged).  The trailing replication enqueue never fails and does not
touch this state, and the engine read-back for inline payloads does not
modify it either. -/
def putObject (s : SysState) (order : List Int) (bucket key versionID : String)
    (size : Int) (data : List StreamStep) (failIdx : Option Nat) (metaOk : Bool) :
    Except String ObjDesc × SysState :=
  match s.alloc.allocate order size with
  | .error e => (.error e, s)
  | .ok (offset, alloc1) =>
    let r := streamWrites data offset 0 failIdx
    let store1 := s.store ++ r.1
    match r.2 with
    | .error e =>
      -- the deferred cleanup guard fires: free the allocation
      let alloc2 := match alloc1.free offset size with
        | .ok a2 => a2
        | .error _ => alloc1
      (.error e, { alloc := alloc2, store := store1, repo := s.repo })
    | .ok _ =>
      let obj : ObjDesc := ⟨key, bucket, versionID, size, offset⟩
      if metaOk then
        (.ok obj, { alloc := alloc1, store := store1, repo := repoPut s.repo obj })
      else
        let alloc2 := match alloc1.free offset size with
          | .ok a2 => a2
          | .error _ => alloc1
        (.error "metadata error", { alloc := alloc2, store := store1, repo := s.repo })

/-- The byte visible at absolute offset `i` given the engine write log
(later writes win); bytes never written read as 0, standing for whatever
the backing store contained. -/
def storeByte (writes : List (Int × List Nat)) (i : Int) : Nat :=
  writes.foldl
    (fun acc w =>
      if w.1 ≤ i ∧ i < w.1 + w.2.length then w.2.getD (i - w.1).toNat 0 else acc)
    0

/-- Go `SimpleEngine.Read(offset, size)`: `size` bytes starting at
`offset` (device reads modeled as always succeeding). -/
def engineRead (writes : List (Int × List Nat)) (offset size : Int) : List Nat :=
  (List.range size.toNat).map (fun j => storeByte writes (offset + j))

/-- Go `Service.GetObject` composed with `FileRepository.Get`: resolve the
descriptor file of (bucket, key) -- `FileRepository.Get` never consults
`versionID` -- then read `obj.Size` bytes at `obj.Offset` from the
engine. -/
def getObject (s : SysState) (bucket key : String) (versionID : Option String) :
    Except String (ObjDesc × List Nat) :=
  match repoFind s.repo bucket key with
  | none => .error "object not found"
  | some obj => .ok (obj, engineRead s.store obj.offset obj.size)

/-! ## Replication (`internal/replication`) -/

/-- Go `StoragePointer` (`event.go`): a pointer into the local engine. -/
structure StoragePointer where
  offset : Int
  size : Int
deriving DecidableEq

/-- Go `EventType`. -/
inductive EventType where
  | putObject
  | deleteObject
  | purgeBucket
deriving DecidableEq

/-- Go `Event` (payload-relevant fields; the id, timestamps and the
metadata bag play no role in the verified claims). -/
structure Event where
  type : EventType
  bucket : String
  key : String
  data : List Nat
  dataURL : String
  storagePointer : Option StoragePointer
deriving DecidableEq

/-- The outbound HTTP request assembled by the replicator. -/
structure HttpRequest where
  method : String
  url : String
  body : List Nat
deriving DecidableEq

/-- Go `Replicator.replicatePutObject(event)`: the body comes from the
inline bytes when present, else from a streaming GET of `event.DataURL`
(modeled by `fetch`); with neither present the function returns the error
`"no data or data URL provided"` before any request is issued.  The
function never consults `event.StoragePointer` and never reads the local
engine. -/
def replicatePutObject (remoteURL : String) (fetch : String → List Nat)
    (event : Event) : Except String HttpRequest :=
  let url := remoteURL ++ "/" ++ event.bucket ++ "/" ++ event.key
  if 0 < event.data.length then
    .ok ⟨"PUT", url, event.data⟩
  else if event.dataURL ≠ "" then
    .ok ⟨"PUT", url, fetch event.dataURL⟩
  else
    .error "no data or data URL provided"

/-- One resolution of the worker's three-way `select` once `Stop()` has
run: the context-done case (always ready after cancellation), the queue
receive case (ready: an event, or end-of-input on the closed channel), or
a batch-timer tick.  Go picks among ready cases arbitrarily. -/
inductive SelectChoice where
  | ctxDone
  | recv
  | tick
deriving DecidableEq

/-- Go `Replicator.worker` from the moment `Stop()` has cancelled the
context and closed the queue.  `queue` holds the events still buffered in
the channel, `batch` the worker's local batch.  Returns the events handed
to `sendBatch` (each such event gets a delivery attempt) and whether the
loop returned within the schedule.  Mirrors the loop body: on ctx.Done
flush the batch and return; on a receive with `ok = false` (closed, empty)
return immediately; on a received event append it and flush when the batch
is full; on a tick flush a non-empty batch. -/
def workerDrain (batchSize : Nat) :
    List SelectChoice → List Event → List Event → List Event × Bool
  | [], _, _ => ([], false)
  | .ctxDone :: _, _, batch => (batch, true)
  | .recv :: _, [], _ => ([], true)
  | .recv :: rest, e :: queue, batch =>
    if batchSize ≤ (batch ++ [e]).length then
      let r := workerDrain batchSize rest queue []
      ((batch ++ [e]) ++ r.1, r.2)
    else
      workerDrain batchSize rest queue (batch ++ [e])
  | .tick :: rest, queue, batch =>
    if 0 < batch.length then
      let r := workerDrain batchSize rest queue []
      (batch ++ r.1, r.2)
    else
      workerDrain batchSize rest queue batch

/-! ## Listing (`FileRepository.List`) -/

/-- Strict byte-lexicographic order on character data (Go `<` on
`string`). -/
def charListLtb : List Char → List Char → Bool
  | [], [] => false
  | [], _ :: _ => true
  | _ :: _, [] => false
  | x :: xs, y :: ys =>
    if x.toNat < y.toNat then true
    else if y.toNat < x.toNat then false
    else charListLtb xs ys

/-- Go `a < b` on strings. -/
def strLtb (a b : String) : Bool := charListLtb a.data b.data

/-- Go `a <= b` on strings, the order `sort.Slice` establishes. -/
def strLeb (a b : String) : Bool := !strLtb b a

/-- `strLeb` as a relation, for the library sort. -/
def strLe (a b : String) : Prop := strLeb a b = true

instance : DecidableRel strLe := fun a b => by unfold strLe; infer_instance

/-- Ascending-by-key order on descriptors (`sort.Slice` comparator
`allObjects[i].Key < allObjects[j].Key`, as the produced order). -/
def objKeyLe (a b : ObjDesc) : Prop := strLeb a.key b.key = true

instance : DecidableRel objKeyLe := fun a b => by unfold objKeyLe; infer_instance

theorem charListLtb_irrefl (x : List Char) : charListLtb x x = false := by
  induction x with
  | nil => rfl
  | cons c rest ih => simp [charListLtb, ih]

theorem charListLtb_trans {x y z : List Char} (h1 : charListLtb x y = true)
    (h2 : charListLtb y z = true) : charListLtb x z = true := by
  induction x generalizing y z with
  | nil =>
    cases y with
    | nil => cases h1
    | cons b ys =>
      cases z with
      | nil => cases h2
      | cons c zs => rfl
  | cons a xs ih =>
    cases y with
    | nil => cases h1
    | cons b ys =>
      cases z with
      | nil => cases h2
      | cons c zs =>
        rw [charListLtb] at h1 h2 ⊢
        by_cases hab : a.toNat < b.toNat
        · by_cases hbc : b.toNat < c.toNat
          · rw [if_pos (show a.toNat < c.toNat by omega)]
          · rw [if_neg hbc] at h2
            by_cases hcb : c.toNat < b.toNat
            · rw [if_pos hcb] at h2; cases h2
            · rw [if_pos (show a.toNat < c.toNat by omega)]
        · rw [if_neg hab] at h1
          by_cases hba : b.toNat < a.toNat
          · rw [if_pos hba] at h1; cases h1
          · rw [if_neg hba] at h1
            by_cases hbc : b.toNat < c.toNat
            · rw [if_pos (show a.toNat < c.toNat by omega)]
            · rw [if_neg hbc] at h2
              by_cases hcb : c.toNat < b.toNat
              · rw [if_pos hcb] at h2; cases h2
              · rw [if_neg hcb] at h2
                rw [if_neg (show ¬a.toNat < c.toNat by omega),
                  if_neg (show ¬c.toNat < a.toNat by omega)]
                exact ih h1 h2

theorem charListLtb_connex {x y : List Char} (h1 : charListLtb x y = false)
    (h2 : charListLtb y x = false) : x = y := by
  induction x generalizing y with
  | nil =>
    cases y with
    | nil => rfl
    | cons b ys => cases h1
  | cons a xs ih =>
    cases y with
    | nil => cases h2
    | cons b ys =>
      rw [charListLtb] at h1 h2
      by_cases hab : a.toNat < b.toNat
      · rw [if_pos hab] at h1; cases h1
      · by_cases hba : b.toNat < a.toNat
        · rw [if_pos hba] at h2; cases h2
        · rw [if_neg hab, if_neg hba] at h1
          rw [if_neg hba, if_neg hab] at h2
          have hc : a = b := by
            rw [← Char.ofNat_toNat a, ← Char.ofNat_toNat b,
              show a.toNat = b.toNat by omega]
          rw [hc, ih h1 h2]

theorem strLeb_trans {a b c : String} (h1 : strLeb a b = true)
    (h2 : strLeb b c = true) : strLeb a c = true := by
  unfold strLeb strLtb at h1 h2 ⊢
  simp only [Bool.not_eq_true'] at h1 h2 ⊢
  cases hca : charListLtb c.data a.data with
  | false => rfl
  | true =>
    exfalso
    cases hab : charListLtb a.data b.data with
    | true =>
      have := charListLtb_trans hca hab
      rw [this] at h2
      cases h2
    | false =>
      have heq : a.data = b.data := charListLtb_connex hab h1
      rw [heq] at hca
      rw [hca] at h2
      cases h2

theorem strLeb_total (a b : String) : strLeb a b = true ∨ strLeb b a = true := by
  unfold strLeb strLtb
  simp only [Bool.not_eq_true']
  cases hba : charListLtb b.data a.data with
  | false => exact Or.inl rfl
  | true =>
    cases hab : charListLtb a.data b.data with
    | false => exact Or.inr rfl
    | true =>
      have := charListLtb_trans hba hab
      rw [charListLtb_irrefl] at this
      cases this

instance : IsTotal String strLe := ⟨strLeb_total⟩

instance : IsTrans String strLe := ⟨fun _ _ _ => strLeb_trans⟩

instance : IsTotal ObjDesc objKeyLe := ⟨fun a b => strLeb_total a.key b.key⟩

instance : IsTrans ObjDesc objKeyLe := ⟨fun _ _ _ => strLeb_trans⟩

/-- Go `ListResult`. -/
structure ListResult where
  objects : List ObjDesc
  commonPrefixes : List String
  isTruncated : Bool
  nextMarker : String
deriving DecidableEq

/-- `internal/object/repository.go`: default page size. -/
def DefaultMaxKeys : Int := 1000

/-- `internal/object/repository.go`: page size cap. -/
def MaxKeysLimit : Int := 10000

/-- Index of the first occurrence of `pat` (Go `strings.Index`). -/
def findSub (pat : List Char) : List Char → Option Nat
  | [] => if pat.isEmpty then some 0 else none
  | c :: rest =>
    if pat.isPrefixOf (c :: rest) then some 0
    else (findSub pat rest).map (fun n => n + 1)

/-- The delimiter-block remainder: the key with `pfx` trimmed from the
front when `pfx` is non-empty (Go `strings.TrimPrefix`). -/
def keyRemainder (key pfx : String) : List Char :=
  if pfx ≠ "" then
    if pfx.data.isPrefixOf key.data then key.data.drop pfx.data.length
    else key.data
  else key.data

/-- The common prefix contributed by `key`, when its remainder contains the
delimiter: `pfx ++ remainder[:idx+len(delimiter)]`. -/
def commonPrefixOf (key pfx delim : String) : Option String :=
  match findSub delim.data (keyRemainder key pfx) with
  | some idx =>
    some (String.mk (pfx.data ++ (keyRemainder key pfx).take (idx + delim.data.length)))
  | none => none

/-- Go `FileRepository.List(ctx, bucket, prefix, opts)` over the parsed
descriptors of the bucket directory (`objs`, in walk order): filter by the
prefix, sort ascending by key, drop keys at or before `startAfter`, clamp
and apply `maxKeys`, compute `NextMarker`, then split out common prefixes
when a delimiter is given (deduplicated and sorted). -/
def repoList (objs : List ObjDesc) (pfx : String) (maxKeys : Int)
    (delim startAfter : String) : ListResult :=
  let allObjects := objs.filter fun o =>
    !(decide (pfx ≠ "") && !(pfx.data.isPrefixOf o.key.data))
  -- `sort.Slice` is an unspecified-order unstable sort; insertion sort is
  -- one ascending-by-key sort, which coincides with it whenever keys are
  -- distinct (one descriptor file per key)
  let sorted := List.insertionSort objKeyLe allObjects
  let afterFiltered :=
    if startAfter ≠ "" then sorted.filter (fun o => strLtb startAfter o.key)
    else sorted
  let mk0 := if maxKeys ≤ 0 then DefaultMaxKeys else maxKeys
  let mk := if MaxKeysLimit < mk0 then MaxKeysLimit else mk0
  let isTruncated : Bool := decide (mk < (afterFiltered.length : Int))
  let truncated := if isTruncated then afterFiltered.take mk.toNat else afterFiltered
  let nextMarker :=
    if isTruncated ∧ 0 < truncated.length then
      match truncated.getLast? with
      | some o => o.key
      | none => ""
    else ""
  if delim ≠ "" then
    let withPfx := truncated.map fun o => (o, commonPrefixOf o.key pfx delim)
    let filteredObjects := (withPfx.filter fun p => p.2.isNone).map Prod.fst
    let rawPrefixes := withPfx.filterMap Prod.snd
    let deduped := rawPrefixes.foldl
      (fun acc p => if p ∈ acc then acc else acc ++ [p]) []
    { objects := filteredObjects
      commonPrefixes := List.insertionSort strLe deduped
      isTruncated := isTruncated
      nextMarker := nextMarker }
  else
    { objects := truncated
      commonPrefixes := []
      isTruncated := isTruncated
      nextMarker := nextMarker }

/-! ## Claim theorems -/

/-- C1: FALSIFIED BY THE CODE.  With `T = 64`, `S = 16`: Allocate(4) = 0,
Allocate(4) = 4, Free(0, 4) leaves slab 0 with `used = 4` and the live
fragment [4, 8); the next Allocate(4) is placed at
`slab.offset + slab.used = 4` and returns offset 4, overlapping the live
fragment [4, 8). -/
theorem allocate_overlaps_live_fragment_c1 :
    (Fragment.mk 4 4) ∈
      (runOps (NewSlabAllocator 64 16)
        [.alloc [] 4, .alloc [0] 4, .free 0 4]).liveFragments ∧
    ((runOps (NewSlabAllocator 64 16)
        [.alloc [] 4, .alloc [0] 4, .free 0 4]).allocate [0] 4).toOption.map
        Prod.fst = some 4 := by
  decide

/-- C9: FALSIFIED BY THE CODE.  After Allocate(12) = 0, Allocate(12) = 16,
Free(0, 12), Free(16, 12), both small slabs (keys 0 and 16) are empty; the
scan iterates the Go slab map in unspecified order, and the two possible
orders of the key set {0, 16} give different results for Allocate(8):
offset 0 under [0, 16] and offset 16 under [16, 0]. -/
theorem allocate_depends_on_map_order_c9 :
    ((runOps (NewSlabAllocator 64 16)
        [.alloc [] 12, .alloc [0] 12, .free 0 12, .free 16 12]).slabs.map
        Slab.offset = [0, 16]) ∧
    ((runOps (NewSlabAllocator 64 16)
        [.alloc [] 12, .alloc [0] 12, .free 0 12, .free 16 12]).allocate
        [0, 16] 8).toOption.map Prod.fst = some 0 ∧
    ((runOps (NewSlabAllocator 64 16)
        [.alloc [] 12, .alloc [0] 12, .free 0 12, .free 16 12]).allocate
        [16, 0] 8).toOption.map Prod.fst = some 16 := by
  decide

/-- C2: FALSIFIED BY THE CODE.  With declared size 1 and a stream
producing the 2 bytes [7, 8], `PutObject` succeeds and its streaming loop
writes both bytes to the engine at offsets [0, 2), beyond the allocated
range [0, 1): the excess byte is written, not discarded. -/
theorem putObject_writes_excess_bytes_c2 :
    ((putObject ⟨NewSlabAllocator 64 16, [], []⟩ [] "b" "k" "v1" 1
        [.chunk [7, 8]] none true).1 = .ok ⟨"k", "b", "v1", 1, 0⟩) ∧
    (putObject ⟨NewSlabAllocator 64 16, [], []⟩ [] "b" "k" "v1" 1
        [.chunk [7, 8]] none true).2.store = [(0, [7, 8])] := by
  decide

/-- C4: FALSIFIED BY THE CODE.  Two successful PUTs of size 4 to the same
(bucket, key): the replacing PUT allocates fresh space at offset 4 and
overwrites the descriptor, but never frees the first PUT's allocation, so
the fragment (0, 4) stays live while no descriptor on disk references
offset 0. -/
theorem put_replace_leaks_allocation_c4 :
    (Fragment.mk 0 4) ∈
      ((putObject
          (putObject ⟨NewSlabAllocator 64 16, [], []⟩ [] "b" "k" "v1" 4
            [.chunk [1, 2, 3, 4]] none true).2
          [0] "b" "k" "v2" 4 [.chunk [5, 6, 7, 8]] none true).2).alloc.liveFragments ∧
    ((putObject
        (putObject ⟨NewSlabAllocator 64 16, [], []⟩ [] "b" "k" "v1" 4
          [.chunk [1, 2, 3, 4]] none true).2
        [0] "b" "k" "v2" 4 [.chunk [5, 6, 7, 8]] none true).2).repo =
      [(("b", "k"), ⟨"k", "b", "v2", 4, 4⟩)] := by
  decide

/-- C3: FALSIFIED BY THE CODE.  A PUT_OBJECT event whose only payload
carrier is the storage pointer {offset 0, size 2048} (no inline bytes, no
source URL, as built by `PutObject` for sizes >= 1 KiB) makes
`replicatePutObject` return "no data or data URL provided": no HTTP PUT is
issued and the local engine is never read. -/
theorem replicatePutObject_pointer_not_sent_c3 :
    replicatePutObject "http://remote:9000" (fun _ => [])
      ⟨.putObject, "b", "k", [], "", some ⟨0, 2048⟩⟩ =
      .error "no data or data URL provided" := by
  decide

/-- C8: FALSIFIED BY THE CODE.  One event is buffered in the queue when
`Stop()` cancels and closes; with `batch_size = 100` the worker receives
the event into its local batch (no flush), the next receive observes the
closed empty channel (`ok = false`) and the worker returns immediately --
without flushing the batch.  The enqueued event is never handed to
`sendBatch`, i.e. it gets no delivery attempt. -/
theorem worker_abandons_batched_event_c8 :
    workerDrain 100 [.recv, .recv]
      [⟨.putObject, "b", "k", [1], "", none⟩] [] = ([], true) := by
  decide

/-- C7 counterexample: the repository stores the descriptor of ("b", "k")
with version "v1"; `GetObject("b", "k", some "v2")` returns that
descriptor (and its bytes) instead of failing with NotFound. -/
theorem getObject_version_mismatch_c7_counterexample :
    getObject ⟨NewSlabAllocator 64 16, [(0, [1, 2])],
        [(("b", "k"), ⟨"k", "b", "v1", 2, 0⟩)]⟩ "b" "k" (some "v2") =
      .ok (⟨"k", "b", "v1", 2, 0⟩, [1, 2]) := by
  decide

/-- C7 amended: `GetObject(bucket, key, version?)` fails with NotFound
exactly when no descriptor exists for (bucket, key); the supplied version
identifier is ignored (`FileRepository.Get` never consults it), so when a
descriptor exists it is returned whatever the requested version. -/
theorem getObject_notFound_iff_no_descriptor_c7 (s : SysState)
    (bucket key : String) (versionID : Option String) :
    (repoFind s.repo bucket key = none →
      getObject s bucket key versionID = .error "object not found") ∧
    (∀ obj, repoFind s.repo bucket key = some obj →
      getObject s bucket key versionID =
        .ok (obj, engineRead s.store obj.offset obj.size)) := by
  constructor
  · intro h
    unfold getObject
    rw [h]
  · intro obj h
    unfold getObject
    rw [h]

theorem getObject_notFound_iff_no_descriptor_c7_witness :
    getObject ⟨NewSlabAllocator 64 16, [], []⟩ "b" "k" (some "v2") =
      .error "object not found" :=
  (getObject_notFound_iff_no_descriptor_c7 ⟨NewSlabAllocator 64 16, [], []⟩
    "b" "k" (some "v2")).1 (by decide)

/-- C5: for every `PutObject` that returns an error -- a stream read
error, an engine write error, or a metadata-commit failure -- the cleanup
guard frees the allocation made for the PUT: the allocator's used-bytes
counter equals its pre-PUT value, and the metadata repository is unchanged
(so no descriptor for the PUT's (bucket, key, version) is discoverable on
disk). -/
theorem putObject_error_cleanup_c5 (s : SysState) (hinv : SlabInv s.alloc)
    (order : List Int) (bucket key versionID : String) (size : Int)
    (data : List StreamStep) (failIdx : Option Nat) (metaOk : Bool) (e : String)
    (herr :
      (putObject s order bucket key versionID size data failIdx metaOk).1 = .error e) :
    (putObject s order bucket key versionID size data failIdx metaOk).2.alloc.usedBytes =
      s.alloc.usedBytes ∧
    (putObject s order bucket key versionID size data failIdx metaOk).2.repo =
      s.repo := by
  unfold putObject at herr ⊢
  cases halloc : s.alloc.allocate order size with
  | error e' =>
    exact ⟨rfl, rfl⟩
  | ok p =>
    obtain ⟨offset, alloc1⟩ := p
    rw [halloc] at herr
    dsimp only at herr ⊢
    obtain ⟨a2, hfree, husd⟩ := allocate_then_free hinv halloc
    cases hw : (streamWrites data offset 0 failIdx).2 with
    | error e2 =>
      rw [hw] at herr
      dsimp only at herr ⊢
      rw [hfree]
      exact ⟨husd, rfl⟩
    | ok u =>
      rw [hw] at herr
      dsimp only at herr ⊢
      cases metaOk with
      | true =>
        rw [if_pos rfl] at herr
        cases herr
      | false =>
        rw [if_neg (by decide)] at herr ⊢
        dsimp only at herr ⊢
        rw [hfree]
        exact ⟨husd, rfl⟩

theorem putObject_error_cleanup_c5_witness :
    (putObject ⟨NewSlabAllocator 64 16, [], []⟩ [] "b" "k" "v1" 4
        [.fail] none true).2.alloc.usedBytes =
      (⟨NewSlabAllocator 64 16, [], []⟩ : SysState).alloc.usedBytes ∧
    (putObject ⟨NewSlabAllocator 64 16, [], []⟩ [] "b" "k" "v1" 4
        [.fail] none true).2.repo =
      (⟨NewSlabAllocator 64 16, [], []⟩ : SysState).repo :=
  putObject_error_cleanup_c5 ⟨NewSlabAllocator 64 16, [], []⟩
    (slabInv_new (by decide) (by decide)) [] "b" "k" "v1" 4 [.fail] none true
    "read error" (by decide)

theorem sumSizes_flatten (ls : List (List Fragment)) :
    sumSizes ls.flatten = (ls.map sumSizes).sum := by
  induction ls with
  | nil => rfl
  | cons l rest ih =>
    rw [List.flatten_cons, sumSizes_append, ih, List.map_cons, List.sum_cons]

/-- C6: after every sequence of allocate/free calls on a freshly created
allocator (total size `T >= 0`, slab size `S > 0`), the state satisfies
`0 <= U <= W <= T` (used bytes, high-water mark `nextOffset`, total size)
and `U` equals the sum of the sizes of all live fragments, i.e. of the
allocations made and never freed. -/
theorem slab_allocator_invariant_c6 (T S : Int) (hT : 0 ≤ T) (hS : 0 < S)
    (ops : List AllocOp) :
    0 ≤ (runOps (NewSlabAllocator T S) ops).usedBytes ∧
    (runOps (NewSlabAllocator T S) ops).usedBytes ≤
      (runOps (NewSlabAllocator T S) ops).nextOffset ∧
    (runOps (NewSlabAllocator T S) ops).nextOffset ≤
      (runOps (NewSlabAllocator T S) ops).totalSize ∧
    (runOps (NewSlabAllocator T S) ops).usedBytes =
      sumSizes (runOps (NewSlabAllocator T S) ops).liveFragments := by
  obtain ⟨hS', hn0, hnT, hsizes, husds, hueq, hfpos, hub, hrange, hdisj⟩ :=
    runOps_inv (slabInv_new hT hS) ops
  set a := runOps (NewSlabAllocator T S) ops with ha
  refine ⟨?_, ?_, hnT, ?_⟩
  · rw [← husds]
    unfold sumUsed
    apply List.sum_nonneg
    intro x hx
    rcases List.mem_map.mp hx with ⟨s, hs, rfl⟩
    exact (hub s hs).1
  · rw [← husds, ← hsizes]
    unfold sumUsed sumSlabSizes
    exact List.sum_le_sum fun s hs => (hub s hs).2
  · rw [← husds]
    unfold SlabAllocator.liveFragments
    rw [sumSizes_flatten, List.map_map]
    unfold sumUsed
    congr 1
    exact List.map_congr_left fun s hs => hueq s hs

theorem slab_allocator_invariant_c6_witness :
    0 ≤ (runOps (NewSlabAllocator 64 16)
        [.alloc [] 4, .alloc [0] 6, .alloc [0] 20, .free 0 4]).usedBytes ∧
    (runOps (NewSlabAllocator 64 16)
        [.alloc [] 4, .alloc [0] 6, .alloc [0] 20, .free 0 4]).usedBytes ≤
      (runOps (NewSlabAllocator 64 16)
        [.alloc [] 4, .alloc [0] 6, .alloc [0] 20, .free 0 4]).nextOffset ∧
    (runOps (NewSlabAllocator 64 16)
        [.alloc [] 4, .alloc [0] 6, .alloc [0] 20, .free 0 4]).nextOffset ≤
      (runOps (NewSlabAllocator 64 16)
        [.alloc [] 4, .alloc [0] 6, .alloc [0] 20, .free 0 4]).totalSize ∧
    (runOps (NewSlabAllocator 64 16)
        [.alloc [] 4, .alloc [0] 6, .alloc [0] 20, .free 0 4]).usedBytes =
      sumSizes (runOps (NewSlabAllocator 64 16)
        [.alloc [] 4, .alloc [0] 6, .alloc [0] 20, .free 0 4]).liveFragments :=
  slab_allocator_invariant_c6 64 16 (by decide) (by decide)
    [.alloc [] 4, .alloc [0] 6, .alloc [0] 20, .free 0 4]

/-- The sorted, prefix- and start_after-filtered descriptor sequence that
`FileRepository.List` paginates. -/
def listMatching (objs : List ObjDesc) (pfx startAfter : String) : List ObjDesc :=
  let allObjects := objs.filter fun o =>
    !(decide (pfx ≠ "") && !(pfx.data.isPrefixOf o.key.data))
  let sorted := List.insertionSort objKeyLe allObjects
  if startAfter ≠ "" then sorted.filter (fun o => strLtb startAfter o.key)
  else sorted

/-- With an empty delimiter, `repoList` paginates `listMatching`. -/
theorem repoList_no_delim (objs : List ObjDesc) (pfx : String) (maxKeys : Int)
    (sa : String) :
    repoList objs pfx maxKeys "" sa =
      (let kept := listMatching objs pfx sa
       let mk0 := if maxKeys ≤ 0 then DefaultMaxKeys else maxKeys
       let mk := if MaxKeysLimit < mk0 then MaxKeysLimit else mk0
       let isTruncated : Bool := decide (mk < (kept.length : Int))
       let truncated := if isTruncated then kept.take mk.toNat else kept
       { objects := truncated
         commonPrefixes := []
         isTruncated := isTruncated
         nextMarker :=
           if isTruncated ∧ 0 < truncated.length then
             match truncated.getLast? with
             | some o => o.key
             | none => ""
           else "" }) := rfl

theorem listMatching_sorted (objs : List ObjDesc) (pfx sa : String) :
    (listMatching objs pfx sa).Pairwise objKeyLe := by
  unfold listMatching
  by_cases hsa : sa ≠ ""
  · rw [if_pos hsa]
    exact (List.sorted_insertionSort objKeyLe _).filter _
  · rw [if_neg hsa]
    exact List.sorted_insertionSort objKeyLe _

theorem listMatching_after {objs : List ObjDesc} {pfx sa : String} (hsa : sa ≠ "") :
    ∀ o ∈ listMatching objs pfx sa, strLtb sa o.key = true := by
  unfold listMatching
  rw [if_pos hsa]
  intro o ho
  exact (List.mem_filter.mp ho).2

/-- C10: with an empty delimiter and `0 < N ≤ MaxKeysLimit`, the listing
returns the matching keys sorted ascending, keeps only keys strictly
greater than `start_after` when it is non-empty, and truncates to
`max_keys = N`; with exactly `N` matching objects `is_truncated = false`,
and with `N + 1` matching objects `is_truncated = true` and `next_marker`
is the Nth sorted matching key. -/
theorem repoList_pagination_c10 (objs : List ObjDesc) (pfx sa : String) (N : Int)
    (hN : 0 < N) (hNcap : N ≤ MaxKeysLimit) :
    ((repoList objs pfx N "" sa).objects.Pairwise objKeyLe) ∧
    (sa ≠ "" → ∀ o ∈ (repoList objs pfx N "" sa).objects, strLtb sa o.key = true) ∧
    (((repoList objs pfx N "" sa).objects.length : Int) ≤ N) ∧
    ((listMatching objs pfx sa).length = N.toNat →
      (repoList objs pfx N "" sa).isTruncated = false) ∧
    ((listMatching objs pfx sa).length = N.toNat + 1 →
      (repoList objs pfx N "" sa).isTruncated = true ∧
      ((listMatching objs pfx sa).map ObjDesc.key)[N.toNat - 1]? =
        some (repoList objs pfx N "" sa).nextMarker) := by
  rw [repoList_no_delim]
  dsimp only
  rw [if_neg (show ¬ N ≤ 0 by omega), if_neg (show ¬ MaxKeysLimit < N by omega)]
  set kept := listMatching objs pfx sa with hkept
  by_cases hlen : N < (kept.length : Int)
  · rw [decide_eq_true hlen]
    rw [if_pos rfl]
    have htk : (kept.take N.toNat).length = N.toNat := by
      rw [List.length_take]
      omega
    refine ⟨?_, ?_, ?_, ?_, ?_⟩
    · exact List.Pairwise.sublist (List.take_sublist _ _) (listMatching_sorted objs pfx sa)
    · intro hsa o ho
      exact listMatching_after hsa o ((List.take_sublist _ _).subset ho)
    · rw [htk]
      omega
    · intro hcount
      exfalso
      omega
    · intro hcount
      refine ⟨rfl, ?_⟩
      rw [if_pos ⟨rfl, by omega⟩]
      have hidx : N.toNat - 1 < kept.length := by omega
      have hlast : (kept.take N.toNat).getLast? = kept[N.toNat - 1]? := by
        rw [List.getLast?_eq_getElem?, htk, List.getElem?_take,
          if_pos (show N.toNat - 1 < N.toNat by omega)]
      rw [hlast, List.getElem?_map]
      cases hx : kept[N.toNat - 1]? with
      | none =>
        rw [List.getElem?_eq_getElem hidx] at hx
        simp at hx
      | some x => rfl
  · rw [decide_eq_false hlen]
    rw [if_neg (by decide)]
    refine ⟨listMatching_sorted objs pfx sa, ?_, by omega, fun _ => rfl, ?_⟩
    · intro hsa o ho
      exact listMatching_after hsa o ho
    · intro hcount
      exfalso
      omega

theorem repoList_pagination_c10_witness :
    (repoList [⟨"b", "bk", "v1", 1, 0⟩, ⟨"a", "bk", "v2", 1, 1⟩, ⟨"c", "bk", "v3", 1, 2⟩]
        "" 2 "" "").isTruncated = true ∧
    ((listMatching
        [⟨"b", "bk", "v1", 1, 0⟩, ⟨"a", "bk", "v2", 1, 1⟩, ⟨"c", "bk", "v3", 1, 2⟩]
        "" "").map ObjDesc.key)[(2 : Int).toNat - 1]? =
      some (repoList
        [⟨"b", "bk", "v1", 1, 0⟩, ⟨"a", "bk", "v2", 1, 1⟩, ⟨"c", "bk", "v3", 1, 2⟩]
        "" 2 "" "").nextMarker :=
  (repoList_pagination_c10
    [⟨"b", "bk", "v1", 1, 0⟩, ⟨"a", "bk", "v2", 1, 1⟩, ⟨"c", "bk", "v3", 1, 2⟩]
    "" "" 2 (by decide) (by decide)).2.2.2.2 (by decide)

end Comio
